import Mathlib

/-!
Shallow embedding of the client-side reconciliation core of the
"we-all-explain" activity page, of the results-view projections, and of the
admin-subdomain middleware.

The embedding follows the source:
* the five WebSocket event handlers registered in the activity page
  (`rating_added`, `comment_added`, `comment_voted`, `participant_joined`,
  `participant_left`) become pure functions
  `Option WeAllExplainActivity → payload → Option WeAllExplainActivity`;
  the `if (!prev) return null` guard of each handler becomes the `none` case;
* the `stats` object of the results view becomes the `stats` function;
* `handleMapDotClick` of the results view becomes `handleMapDotClick`,
  with a cost-instrumented companion counting the comments inspected by the
  linear `Array.find` scan;
* `middleware` of `src/middleware.ts` becomes `middleware`.

JavaScript numbers are modelled as rationals (`ℚ`), arrays as lists,
`Array.findIndex` (which returns −1 on failure) as an `Option Nat`-valued
function, and the nullable activity as `Option WeAllExplainActivity`.
-/

/-- A 2D map position `{x, y}` in axis coordinates. -/
structure Position where
  x : ℚ
  y : ℚ
deriving DecidableEq, Repr

/-- A labeled numeric axis `{label, min, max}` of an activity. -/
structure Axis where
  label : String
  min : ℚ
  max : ℚ
deriving DecidableEq, Repr

/-- A participant's rating: the user's 2D position submission. -/
structure Rating where
  userId : String
  position : Position
  timestamp : Nat
deriving DecidableEq, Repr

/-- A participant's free-text comment with its server-assigned id and
server-authoritative vote count. -/
structure Comment where
  id : String
  userId : String
  username : String
  text : String
  voteCount : Nat
  timestamp : Nat
deriving DecidableEq, Repr

/-- A participant roster entry, unique by `id`. -/
structure Participant where
  id : String
  name : String
deriving DecidableEq, Repr

/-- Activity lifecycle status: `active` or `completed`. -/
inductive ActivityStatus where
  | active
  | completed
deriving DecidableEq, Repr

/-- The shared activity document owned by the reconciliation core. -/
structure WeAllExplainActivity where
  id : String
  title : String
  urlName : String
  mapQuestion : String
  commentQuestion : String
  xAxis : Axis
  yAxis : Axis
  status : ActivityStatus
  participants : List Participant
  ratings : List Rating
  comments : List Comment
deriving DecidableEq, Repr

/-- `rating_added` handler: on a loaded activity, drop every rating with the
incoming rating's userId and append the incoming rating; on `null`, no-op. -/
def applyRatingAdded (prev : Option WeAllExplainActivity) (rating : Rating) :
    Option WeAllExplainActivity :=
  match prev with
  | none => none
  | some a =>
      some { a with
        ratings := (a.ratings.filter fun r => r.userId ≠ rating.userId) ++ [rating] }

/-- `Array.findIndex` on a comment list: index of the first element satisfying
`p`; the JavaScript value −1 (no match) is modelled as `none`. -/
def findIndex (p : Comment → Bool) : List Comment → Option Nat
  | [] => none
  | c :: t => if p c then some 0 else (findIndex p t).map (· + 1)

/-- The duplicate check of the `comment_added` handler: an existing comment
matches when both userId and text equal the incoming comment's. -/
def sameUserAndText (incoming existing : Comment) : Bool :=
  existing.userId == incoming.userId && existing.text == incoming.text

/-- The comment-list update of the `comment_added` handler: if some existing
comment matches on (userId, text), overwrite it at its index; otherwise drop
every comment with the incoming userId and append the incoming comment. -/
def upsertComment (comments : List Comment) (comment : Comment) : List Comment :=
  match findIndex (sameUserAndText comment) comments with
  | some i => comments.set i comment
  | none => (comments.filter fun c => c.userId ≠ comment.userId) ++ [comment]

/-- `comment_added` handler: apply `upsertComment` on a loaded activity;
on `null`, no-op. -/
def applyCommentAdded (prev : Option WeAllExplainActivity) (comment : Comment) :
    Option WeAllExplainActivity :=
  match prev with
  | none => none
  | some a => some { a with comments := upsertComment a.comments comment }

/-- `comment_voted` handler: replace every stored comment whose id equals the
incoming comment's id by the incoming comment; on `null`, no-op (the handler
returns `prev`, which is `null`). -/
def applyCommentVoted (prev : Option WeAllExplainActivity) (comment : Comment) :
    Option WeAllExplainActivity :=
  match prev with
  | none => none
  | some a =>
      some { a with
        comments := a.comments.map fun c => if c.id = comment.id then comment else c }

/-- `participant_joined` handler: drop every participant with the incoming id
and append the incoming participant; on `null`, no-op. -/
def applyParticipantJoined (prev : Option WeAllExplainActivity)
    (participant : Participant) : Option WeAllExplainActivity :=
  match prev with
  | none => none
  | some a =>
      some { a with
        participants :=
          (a.participants.filter fun p => p.id ≠ participant.id) ++ [participant] }

/-- `participant_left` handler: keep exactly the participants whose id differs
from the departing id; on `null`, no-op. -/
def applyParticipantLeft (prev : Option WeAllExplainActivity)
    (participantId : String) : Option WeAllExplainActivity :=
  match prev with
  | none => none
  | some a =>
      some { a with
        participants := a.participants.filter fun p => p.id ≠ participantId }

/-- The aggregate statistics computed by the results view. -/
structure Stats where
  totalParticipants : Nat
  totalRatings : Nat
  totalComments : Nat
  averagePosition : Option Position
deriving DecidableEq, Repr

/-- The `stats` object of the results view: counts plus the componentwise mean
position, `null` when there are no ratings. -/
def stats (activity : WeAllExplainActivity) : Stats :=
  { totalParticipants := activity.participants.length
    totalRatings := activity.ratings.length
    totalComments := activity.comments.length
    averagePosition :=
      if 0 < activity.ratings.length then
        some
          { x := (activity.ratings.foldl (fun sum r => sum + r.position.x) 0) /
              (activity.ratings.length : ℚ)
            y := (activity.ratings.foldl (fun sum r => sum + r.position.y) 0) /
              (activity.ratings.length : ℚ) }
      else none }

/-- The comment lookup of `handleMapDotClick`: first stored comment with
the clicked dot's userId (`activity.comments.find`). -/
def findCommentByUser (comments : List Comment) (userId : String) :
    Option Comment :=
  comments.find? fun c => c.userId == userId

/-- `handleMapDotClick`: resolve the clicked userId to a comment, and select
its id only when it is currently rendered (`visibleCommentIds.includes`);
`none` means the selection state is left unchanged. -/
def handleMapDotClick (comments : List Comment) (visibleCommentIds : List String)
    (userId : String) : Option String :=
  match findCommentByUser comments userId with
  | some comment =>
      if visibleCommentIds.contains comment.id then some comment.id else none
  | none => none

/-- Cost of the `comments.find` scan in `handleMapDotClick`: the number of
stored comments inspected before the scan stops (position of the first match,
or the whole list length when no comment has the userId). -/
def findCommentCost (comments : List Comment) (userId : String) : Nat :=
  match comments with
  | [] => 0
  | c :: t => if c.userId = userId then 1 else 1 + findCommentCost t userId

/-- The at-most-one-per-user invariant of the data model: no two ratings share
a userId and no two comments share a userId. -/
def PerUserUnique (a : WeAllExplainActivity) : Prop :=
  (a.ratings.map Rating.userId).Nodup ∧ (a.comments.map Comment.userId).Nodup

instance (a : WeAllExplainActivity) : Decidable (PerUserUnique a) :=
  inferInstanceAs
    (Decidable ((a.ratings.map Rating.userId).Nodup ∧
      (a.comments.map Comment.userId).Nodup))

/-- `PerUserUnique` lifted to the nullable activity state: `null` satisfies it
vacuously. -/
def PerUserUniqueOpt : Option WeAllExplainActivity → Prop
  | none => True
  | some a => PerUserUnique a

instance : (s : Option WeAllExplainActivity) → Decidable (PerUserUniqueOpt s)
  | none => isTrue trivial
  | some a => inferInstanceAs (Decidable (PerUserUnique a))

/-- The voteCount the client currently stores for a comment id, if any. -/
def voteCountOf (a : WeAllExplainActivity) (commentId : String) : Option Nat :=
  (a.comments.find? fun c => c.id == commentId).map Comment.voteCount

/-- Result of the Next.js middleware on a request. -/
inductive MiddlewareResult where
  | redirect (pathname : String)
  | notFound
  | next
deriving DecidableEq, Repr

/-- Substring test on character lists (`String.includes` of JavaScript). -/
def containsSub (needle : List Char) : List Char → Bool
  | [] => needle.isEmpty
  | c :: t => needle.isPrefixOf (c :: t) || containsSub needle t

/-- `hostname.includes(s)` of JavaScript. -/
def strContains (hay needle : String) : Bool :=
  containsSub needle.toList hay.toList

/-- `pathname.startsWith(s)` of JavaScript. -/
def strStartsWith (s pre : String) : Bool :=
  pre.toList.isPrefixOf s.toList

/-- Split a character list at every occurrence of `sep`; the empty list
yields one empty field, matching JavaScript `split`. -/
def splitChar (sep : Char) : List Char → List (List Char)
  | [] => [[]]
  | c :: t =>
      let rest := splitChar sep t
      if c = sep then [] :: rest
      else (c :: rest.headD []) :: rest.tail

/-- `hostname.split('.')` of JavaScript. -/
def jsSplitDot (s : String) : List String :=
  (splitChar '.' s.toList).map fun l => String.mk l

/-- `process.env.ADMIN_SUBDOMAIN || 'admin'`: an unset or empty environment
variable falls back to `"admin"` (JavaScript `||` is falsy on `""`). -/
def adminSubdomainOf (env : Option String) : String :=
  match env with
  | none => "admin"
  | some s => if s = "" then "admin" else s

/-- The middleware of `src/middleware.ts`: given the configured admin
subdomain environment variable, the `host` header (absent modelled as `none`,
falling back to `""`), and the request pathname, decide whether to redirect
onto `/admin`, answer 404, or let the request continue. -/
def middleware (adminEnv : Option String) (hostHeader : Option String)
    (pathname : String) : MiddlewareResult :=
  let hostname := hostHeader.getD ""
  let subdomain := (jsSplitDot hostname).headD ""
  let adminSubdomain := adminSubdomainOf adminEnv
  let isAdminRoute := strStartsWith pathname "/admin"
  let isLocalAdmin :=
    hostname == "admin.localhost:3000" || hostname == "admin.localhost"
  let isAdminSubdomain := subdomain == adminSubdomain || isLocalAdmin
  if isAdminSubdomain && !isAdminRoute then
    .redirect ("/admin" ++ pathname)
  else
    let isLocalhost :=
      strContains hostname "localhost" && !(strContains hostname "admin.")
    if isAdminRoute && (!isAdminSubdomain && !isLocalhost) then
      .notFound
    else
      .next

/-! ### Helper lemmas on lists and on `findIndex` -/

theorem set_get_self {α : Type} (l : List α) (i : Nat) (hi : i < l.length) :
    l.set i (l.get ⟨i, hi⟩) = l := by
  induction l generalizing i with
  | nil => simp at hi
  | cons c t ih =>
      cases i with
      | zero => rfl
      | succ k =>
          show c :: t.set k (t.get ⟨k, Nat.lt_of_succ_lt_succ hi⟩) = c :: t
          rw [ih k (Nat.lt_of_succ_lt_succ hi)]

theorem nodup_map_filter_append {α β : Type} [DecidableEq β] (f : α → β)
    (l : List α) (x : α) (h : (l.map f).Nodup) :
    ((((l.filter fun y => f y ≠ f x) ++ [x]).map f)).Nodup := by
  rw [List.map_append, List.nodup_append]
  refine ⟨List.Nodup.sublist (List.Sublist.map f (List.filter_sublist l)) h,
    by simp, ?_⟩
  rw [List.map_singleton, List.disjoint_singleton]
  intro hmem
  obtain ⟨y, hy, hfy⟩ := List.mem_map.1 hmem
  have hne := (List.mem_filter.1 hy).2
  simp only [decide_eq_true_eq] at hne
  exact hne hfy

theorem findIndex_eq_none (p : Comment → Bool) (l : List Comment)
    (h : ∀ c ∈ l, p c = false) : findIndex p l = none := by
  induction l with
  | nil => rfl
  | cons c t ih =>
      have hc : p c = false := h c (List.mem_cons_self c t)
      have ht := ih fun d hd => h d (List.mem_cons_of_mem c hd)
      simp [findIndex, hc, ht]

theorem findIndex_eq_some (p : Comment → Bool) (l : List Comment) (i : Nat)
    (hi : i < l.length) (hp : p (l.get ⟨i, hi⟩) = true)
    (hfirst : ∀ j (hj : j < i), p (l.get ⟨j, hj.trans hi⟩) = false) :
    findIndex p l = some i := by
  induction l generalizing i with
  | nil => simp at hi
  | cons c t ih =>
      cases i with
      | zero => simpa [findIndex] using hp
      | succ k =>
          have hc : p c = false := hfirst 0 (Nat.succ_pos k)
          have hk := ih k (Nat.lt_of_succ_lt_succ hi) hp
            (fun j hj => hfirst (j + 1) (Nat.succ_lt_succ hj))
          simp [findIndex, hc, hk]

theorem findIndex_some_spec (p : Comment → Bool) (l : List Comment) (i : Nat)
    (h : findIndex p l = some i) :
    ∃ hi : i < l.length, p (l.get ⟨i, hi⟩) = true := by
  induction l generalizing i with
  | nil => simp [findIndex] at h
  | cons c t ih =>
      by_cases hc : p c = true
      · simp [findIndex, hc] at h
        subst h
        exact ⟨Nat.succ_pos _, hc⟩
      · rw [Bool.not_eq_true] at hc
        simp [findIndex, hc] at h
        obtain ⟨j, hj, rfl⟩ := h
        obtain ⟨hji, hpj⟩ := ih j hj
        exact ⟨Nat.succ_lt_succ hji, hpj⟩

theorem applyRatingAdded_absorb (rA rB : Rating) (h : rA.userId = rB.userId)
    (s : Option WeAllExplainActivity) :
    applyRatingAdded (applyRatingAdded s rA) rB = applyRatingAdded s rB := by
  cases s with
  | none => rfl
  | some a =>
      simp only [applyRatingAdded, Option.some.injEq]
      congr 1
      rw [List.filter_append, List.filter_filter]
      have hpred : (fun x : Rating =>
          decide (x.userId ≠ rB.userId) && decide (x.userId ≠ rA.userId)) =
          fun x : Rating => decide (x.userId ≠ rB.userId) := by
        funext x
        rw [h, Bool.and_self]
      rw [hpred]
      have hr : ([rA].filter fun x => x.userId ≠ rB.userId) = [] := by
        simp [h]
      rw [hr, List.append_nil]

/-! ### Claim theorems -/

/-- C3: applying any of the five apply-operations (`rating_added`,
`comment_added`, `comment_voted`, `participant_joined`, `participant_left`)
when the current activity state is `null` leaves the state `null`; the
operations are total functions, so they cannot throw. -/
theorem apply_ops_null_noop (r : Rating) (c c2 : Comment) (p : Participant)
    (pid : String) :
    applyRatingAdded none r = none ∧
    applyCommentAdded none c = none ∧
    applyCommentVoted none c2 = none ∧
    applyParticipantJoined none p = none ∧
    applyParticipantLeft none pid = none :=
  ⟨rfl, rfl, rfl, rfl, rfl⟩

/-- C2: `rating_added` keeps exactly the ratings of other users plus the
incoming rating, is idempotent, and two successive applications for the same
userId are equivalent to the last one alone, so in any sequence of
applications with one userId only the most recently applied position is
retained. -/
theorem applyRatingAdded_foldl (rs : List Rating) (rA : Rating)
    (s : Option WeAllExplainActivity) (h : ∀ x ∈ rs, x.userId = rA.userId) :
    (rA :: rs).foldl applyRatingAdded s =
      applyRatingAdded s ((rA :: rs).getLast (List.cons_ne_nil rA rs)) := by
  induction rs generalizing rA s with
  | nil => rfl
  | cons x rs ih =>
      have hx : x.userId = rA.userId := h x (List.mem_cons_self x rs)
      have hrs : ∀ y ∈ rs, y.userId = x.userId := fun y hy =>
        (h y (List.mem_cons_of_mem x hy)).trans hx.symm
      show (x :: rs).foldl applyRatingAdded (applyRatingAdded s rA) = _
      rw [ih x (applyRatingAdded s rA) hrs]
      have hlast : ((x :: rs).getLast (List.cons_ne_nil x rs)).userId =
          rA.userId := by
        rcases List.mem_cons.mp (List.getLast_mem (List.cons_ne_nil x rs)) with
          hh | hh
        · rw [hh]
          exact hx
        · exact h _ (List.mem_cons_of_mem x hh)
      rw [applyRatingAdded_absorb rA _ hlast.symm s]
      congr 1

theorem applyRatingAdded_spec (a : WeAllExplainActivity) (r r2 : Rating) :
    (∀ x : Rating,
      (∃ a2, applyRatingAdded (some a) r = some a2 ∧ x ∈ a2.ratings) ↔
        ((x ∈ a.ratings ∧ x.userId ≠ r.userId) ∨ x = r)) ∧
    (∀ s : Option WeAllExplainActivity,
      applyRatingAdded (applyRatingAdded s r) r = applyRatingAdded s r) ∧
    (r.userId = r2.userId →
      ∀ s : Option WeAllExplainActivity,
        applyRatingAdded (applyRatingAdded s r) r2 = applyRatingAdded s r2) ∧
    (∀ (rs : List Rating) (s : Option WeAllExplainActivity),
      (∀ x ∈ rs, x.userId = r.userId) →
      (r :: rs).foldl applyRatingAdded s =
        applyRatingAdded s ((r :: rs).getLast (List.cons_ne_nil r rs))) := by
  refine ⟨?_, fun s => applyRatingAdded_absorb r r rfl s,
    fun h s => applyRatingAdded_absorb r r2 h s,
    fun rs s h => applyRatingAdded_foldl rs r s h⟩
  intro x
  constructor
  · rintro ⟨a2, ha2, hx⟩
    simp only [applyRatingAdded, Option.some.injEq] at ha2
    subst ha2
    simp only [List.mem_append, List.mem_filter, decide_eq_true_eq,
      List.mem_singleton] at hx
    tauto
  · intro h
    refine ⟨_, rfl, ?_⟩
    simp only [List.mem_append, List.mem_filter, decide_eq_true_eq,
      List.mem_singleton]
    tauto

/-- Concrete instance for C2: a second rating by the same user replaces the
first, exactly as if only the second had been applied. -/
theorem applyRatingAdded_spec_witness :
    applyRatingAdded
        (applyRatingAdded (some (WeAllExplainActivity.mk "act1" "t" "u" "mq"
          "cq" ⟨"x", 0, 10⟩ ⟨"y", 0, 10⟩ .active [] [] []))
          ⟨"u1", ⟨0, 0⟩, 0⟩)
        ⟨"u1", ⟨5, 5⟩, 1⟩ =
      applyRatingAdded (some (WeAllExplainActivity.mk "act1" "t" "u" "mq"
        "cq" ⟨"x", 0, 10⟩ ⟨"y", 0, 10⟩ .active [] [] []))
        ⟨"u1", ⟨5, 5⟩, 1⟩ :=
  (applyRatingAdded_spec (WeAllExplainActivity.mk "act1" "t" "u" "mq"
      "cq" ⟨"x", 0, 10⟩ ⟨"y", 0, 10⟩ .active [] [] [])
      ⟨"u1", ⟨0, 0⟩, 0⟩ ⟨"u1", ⟨5, 5⟩, 1⟩).2.2.1 rfl _

/-- C1: `comment_added` follows the two-step dedup rule: when some existing
comment matches the incoming one on both userId and text, the first such
comment is overwritten at its position and nothing else changes (`List.set`);
otherwise every comment of the same user is removed and the incoming comment
is appended. -/
theorem applyCommentAdded_dedup (a : WeAllExplainActivity) (comment : Comment) :
    (∀ i (hi : i < a.comments.length),
      ((a.comments.get ⟨i, hi⟩).userId = comment.userId ∧
        (a.comments.get ⟨i, hi⟩).text = comment.text) →
      (∀ j (hj : j < i),
        ¬ ((a.comments.get ⟨j, hj.trans hi⟩).userId = comment.userId ∧
          (a.comments.get ⟨j, hj.trans hi⟩).text = comment.text)) →
      applyCommentAdded (some a) comment =
        some { a with comments := a.comments.set i comment }) ∧
    ((∀ c ∈ a.comments, ¬ (c.userId = comment.userId ∧ c.text = comment.text)) →
      applyCommentAdded (some a) comment =
        some { a with comments :=
          (a.comments.filter fun c => c.userId ≠ comment.userId) ++ [comment] }) := by
  constructor
  · intro i hi hmatch hfirst
    have hfi : findIndex (sameUserAndText comment) a.comments = some i := by
      apply findIndex_eq_some _ _ _ hi
      · simp only [sameUserAndText, Bool.and_eq_true, beq_iff_eq]
        exact hmatch
      · intro j hj
        have hj2 := hfirst j hj
        simp only [sameUserAndText, Bool.and_eq_false_iff, beq_eq_false_iff_ne]
        by_cases hu : (a.comments.get ⟨j, hj.trans hi⟩).userId = comment.userId
        · exact Or.inr fun ht => hj2 ⟨hu, ht⟩
        · exact Or.inl hu
    simp [applyCommentAdded, upsertComment, hfi]
  · intro h
    have hfi : findIndex (sameUserAndText comment) a.comments = none := by
      apply findIndex_eq_none
      intro c hc
      have hc2 := h c hc
      simp only [sameUserAndText, Bool.and_eq_false_iff, beq_eq_false_iff_ne]
      by_cases hu : c.userId = comment.userId
      · exact Or.inr fun ht => hc2 ⟨hu, ht⟩
      · exact Or.inl hu
    simp [applyCommentAdded, upsertComment, hfi]

/-- Concrete instance for C1: on comments
`[{userId:"a", text:"hi", id:"c1"}]`, an incoming `comment_added` with
`{userId:"a", text:"hi", id:"c1", voteCount:3}` replaces in place, giving
exactly one comment, with voteCount 3. -/
theorem applyCommentAdded_dedup_witness :
    applyCommentAdded
        (some (WeAllExplainActivity.mk "act1" "t" "u" "mq" "cq" ⟨"x", 0, 10⟩
          ⟨"y", 0, 10⟩ .active [] [] [⟨"c1", "a", "ua", "hi", 0, 0⟩]))
        ⟨"c1", "a", "ua", "hi", 3, 0⟩ =
      some (WeAllExplainActivity.mk "act1" "t" "u" "mq" "cq" ⟨"x", 0, 10⟩
        ⟨"y", 0, 10⟩ .active [] [] [⟨"c1", "a", "ua", "hi", 3, 0⟩]) := by
  have h := (applyCommentAdded_dedup
    (WeAllExplainActivity.mk "act1" "t" "u" "mq" "cq" ⟨"x", 0, 10⟩
      ⟨"y", 0, 10⟩ .active [] [] [⟨"c1", "a", "ua", "hi", 0, 0⟩])
    ⟨"c1", "a", "ua", "hi", 3, 0⟩).1 0 (by decide) (by decide)
    (fun j hj => absurd hj (Nat.not_lt_zero j))
  exact h

/-- C7: `comment_voted` replaces exactly the stored comments whose id matches
the incoming comment (positionwise), leaves every comment with a different id
and all other activity fields unchanged, and when no stored comment has the
matching id the state is entirely unchanged — the incoming comment is not
appended. -/
theorem applyCommentVoted_frame (a : WeAllExplainActivity) (c : Comment) :
    ∀ a2, applyCommentVoted (some a) c = some a2 →
      (a2.ratings = a.ratings ∧ a2.participants = a.participants ∧
        a2.status = a.status ∧ a2.id = a.id ∧ a2.title = a.title ∧
        a2.urlName = a.urlName ∧ a2.mapQuestion = a.mapQuestion ∧
        a2.commentQuestion = a.commentQuestion ∧ a2.xAxis = a.xAxis ∧
        a2.yAxis = a.yAxis) ∧
      a2.comments.length = a.comments.length ∧
      (∀ (i : Nat) (d : Comment), a.comments[i]? = some d →
        (d.id = c.id → a2.comments[i]? = some c) ∧
        (d.id ≠ c.id → a2.comments[i]? = some d)) ∧
      ((∀ d ∈ a.comments, d.id ≠ c.id) → a2 = a) := by
  intro a2 h
  simp only [applyCommentVoted, Option.some.injEq] at h
  subst h
  refine ⟨⟨rfl, rfl, rfl, rfl, rfl, rfl, rfl, rfl, rfl, rfl⟩, by simp, ?_, ?_⟩
  · intro i d hd
    constructor
    · intro hid
      simp [List.getElem?_map, hd, hid]
    · intro hid
      simp [List.getElem?_map, hd, hid]
  · intro hnone
    have hmap : (a.comments.map fun d => if d.id = c.id then c else d) =
        a.comments := by
      have := List.map_congr_left (l := a.comments)
        (f := fun d => if d.id = c.id then c else d) (g := id)
        (fun d hd => by simp [hnone d hd])
      simpa using this
    simp only [hmap]

/-- Concrete instance for C7: a `comment_voted` event whose id matches no
stored comment leaves the state entirely unchanged. -/
theorem applyCommentVoted_frame_witness :
    applyCommentVoted
        (some (WeAllExplainActivity.mk "act1" "t" "u" "mq" "cq" ⟨"x", 0, 10⟩
          ⟨"y", 0, 10⟩ .active [] [] [⟨"c1", "a", "ua", "hi", 0, 0⟩]))
        ⟨"c9", "z", "uz", "zz", 4, 0⟩ =
      some (WeAllExplainActivity.mk "act1" "t" "u" "mq" "cq" ⟨"x", 0, 10⟩
        ⟨"y", 0, 10⟩ .active [] [] [⟨"c1", "a", "ua", "hi", 0, 0⟩]) := by
  have h := (applyCommentVoted_frame
    (WeAllExplainActivity.mk "act1" "t" "u" "mq" "cq" ⟨"x", 0, 10⟩
      ⟨"y", 0, 10⟩ .active [] [] [⟨"c1", "a", "ua", "hi", 0, 0⟩])
    ⟨"c9", "z", "uz", "zz", 4, 0⟩ _ rfl).2.2.2 (by decide)
  exact congrArg some h

/-- C8: `participant_joined` upserts by id — after it, the entries with the
joining id are exactly the incoming participant (replaced, not duplicated),
membership is filter-plus-append, and distinctness of participant ids is
preserved; `participant_left` removes exactly the participants with the given
id and is a no-op when no participant has that id. -/
theorem participant_ops_spec (a : WeAllExplainActivity) (p : Participant)
    (pid : String) :
    (∀ a2, applyParticipantJoined (some a) p = some a2 →
      (∀ x : Participant, x ∈ a2.participants ↔
        (x ∈ a.participants ∧ x.id ≠ p.id) ∨ x = p) ∧
      (a2.participants.filter fun q => q.id = p.id) = [p] ∧
      ((a.participants.map Participant.id).Nodup →
        (a2.participants.map Participant.id).Nodup)) ∧
    (∀ a2, applyParticipantLeft (some a) pid = some a2 →
      (∀ x : Participant, x ∈ a2.participants ↔
        x ∈ a.participants ∧ x.id ≠ pid) ∧
      ((∀ q ∈ a.participants, q.id ≠ pid) → a2 = a)) := by
  constructor
  · intro a2 h
    simp only [applyParticipantJoined, Option.some.injEq] at h
    subst h
    refine ⟨?_, ?_, ?_⟩
    · intro x
      simp only [List.mem_append, List.mem_filter, decide_eq_true_eq,
        List.mem_singleton]
    · rw [List.filter_append, List.filter_filter]
      have hfalse : (fun q : Participant =>
          decide (q.id = p.id) && decide (q.id ≠ p.id)) =
          fun _ : Participant => false := by
        funext q
        by_cases hq : q.id = p.id <;> simp [hq]
      rw [hfalse, List.filter_false]
      simp
    · exact fun h => nodup_map_filter_append Participant.id a.participants p h
  · intro a2 h
    simp only [applyParticipantLeft, Option.some.injEq] at h
    subst h
    refine ⟨?_, ?_⟩
    · intro x
      simp only [List.mem_filter, decide_eq_true_eq]
    · intro hnone
      have hself : (a.participants.filter fun q => q.id ≠ pid) =
          a.participants := by
        rw [List.filter_eq_self]
        intro q hq
        simpa using hnone q hq
      simp only [hself]

/-- Concrete instance for C8: `participant_left` for an id that is not present
leaves the state unchanged. -/
theorem participant_ops_spec_witness :
    applyParticipantLeft
        (some (WeAllExplainActivity.mk "act1" "t" "u" "mq" "cq" ⟨"x", 0, 10⟩
          ⟨"y", 0, 10⟩ .active [⟨"p1", "n1"⟩] [] []))
        "zz" =
      some (WeAllExplainActivity.mk "act1" "t" "u" "mq" "cq" ⟨"x", 0, 10⟩
        ⟨"y", 0, 10⟩ .active [⟨"p1", "n1"⟩] [] []) := by
  have h := ((participant_ops_spec
    (WeAllExplainActivity.mk "act1" "t" "u" "mq" "cq" ⟨"x", 0, 10⟩
      ⟨"y", 0, 10⟩ .active [⟨"p1", "n1"⟩] [] [])
    ⟨"p9", "n9"⟩ "zz").2 _ rfl).2 (by decide)
  exact congrArg some h

theorem foldl_add_map {α : Type} (f : α → ℚ) (l : List α) (s : ℚ) :
    l.foldl (fun acc x => acc + f x) s = s + (l.map f).sum := by
  induction l generalizing s with
  | nil => simp
  | cons c t ih => simp [ih, add_assoc]

/-- C6: the aggregate-statistics projection omits the mean position (`null`)
when there are no ratings — no division by zero occurs — and otherwise
computes the componentwise arithmetic mean over all ratings. -/
theorem stats_mean (a : WeAllExplainActivity) :
    (a.ratings = [] → (stats a).averagePosition = none) ∧
    (a.ratings ≠ [] →
      (stats a).averagePosition =
        some (Position.mk
          ((a.ratings.map fun r => r.position.x).sum / (a.ratings.length : ℚ))
          ((a.ratings.map fun r => r.position.y).sum / (a.ratings.length : ℚ)))) := by
  constructor
  · intro h
    simp [stats, h]
  · intro h
    have hlen : 0 < a.ratings.length := List.length_pos.2 h
    simp [stats, hlen, foldl_add_map]

/-- Concrete instance for C6: for ratings at positions `(0,0)` and `(2,2)`
the mean position is `(1,1)`. -/
theorem stats_mean_witness :
    (stats (WeAllExplainActivity.mk "act1" "t" "u" "mq" "cq" ⟨"x", 0, 10⟩
        ⟨"y", 0, 10⟩ .active []
        [⟨"u1", ⟨0, 0⟩, 0⟩, ⟨"u2", ⟨2, 2⟩, 0⟩] [])).averagePosition =
      some ⟨1, 1⟩ := by
  have h := (stats_mean (WeAllExplainActivity.mk "act1" "t" "u" "mq" "cq"
    ⟨"x", 0, 10⟩ ⟨"y", 0, 10⟩ .active []
    [⟨"u1", ⟨0, 0⟩, 0⟩, ⟨"u2", ⟨2, 2⟩, 0⟩] [])).2 (by decide)
  rw [h]
  norm_num

/-- The claim of C4 as stated is false: `comment_voted` installs the incoming
comment wholesale, so a payload whose userId differs from the stored comment
with that id creates a second comment for a user. Starting from comments by
users `"a"` and `"b"` (invariant holds), a `comment_voted` payload with id
`"c2"` but userId `"a"` leaves two comments with userId `"a"`. -/
theorem invariant_preserved_counterexample :
    PerUserUnique (WeAllExplainActivity.mk "act1" "t" "u" "mq" "cq"
      ⟨"x", 0, 10⟩ ⟨"y", 0, 10⟩ .active [] []
      [⟨"c1", "a", "ua", "t1", 0, 0⟩, ⟨"c2", "b", "ub", "t2", 0, 0⟩]) ∧
    ¬ PerUserUniqueOpt (applyCommentVoted
      (some (WeAllExplainActivity.mk "act1" "t" "u" "mq" "cq"
        ⟨"x", 0, 10⟩ ⟨"y", 0, 10⟩ .active [] []
        [⟨"c1", "a", "ua", "t1", 0, 0⟩, ⟨"c2", "b", "ub", "t2", 0, 0⟩]))
      ⟨"c2", "a", "ua", "t2", 1, 0⟩) := by
  decide

/-- C4 (amended): the at-most-one-rating-and-comment-per-userId invariant is
preserved by `rating_added`, `comment_added`, `participant_joined` and
`participant_left` for every payload, and by `comment_voted` for every payload
whose userId agrees with each stored comment carrying the payload's id (which
holds for genuine server echoes, where the payload is the stored comment with
an updated vote count). In particular a repeated `comment_added` with
identical (userId, text) never produces two entries. -/
theorem invariant_preserved (a : WeAllExplainActivity) (h : PerUserUnique a) :
    (∀ r, PerUserUniqueOpt (applyRatingAdded (some a) r)) ∧
    (∀ c, PerUserUniqueOpt (applyCommentAdded (some a) c)) ∧
    (∀ p, PerUserUniqueOpt (applyParticipantJoined (some a) p)) ∧
    (∀ pid, PerUserUniqueOpt (applyParticipantLeft (some a) pid)) ∧
    (∀ c, (∀ d ∈ a.comments, d.id = c.id → d.userId = c.userId) →
      PerUserUniqueOpt (applyCommentVoted (some a) c)) := by
  refine ⟨fun r => ?_, fun c => ?_, fun p => ?_, fun pid => ?_, fun c hc => ?_⟩
  · exact ⟨nodup_map_filter_append Rating.userId a.ratings r h.1, h.2⟩
  · cases hfi : findIndex (sameUserAndText c) a.comments with
    | none =>
        have hup : upsertComment a.comments c =
            (a.comments.filter fun d => d.userId ≠ c.userId) ++ [c] := by
          simp [upsertComment, hfi]
        refine ⟨h.1, ?_⟩
        show (List.map Comment.userId (upsertComment a.comments c)).Nodup
        rw [hup]
        exact nodup_map_filter_append Comment.userId a.comments c h.2
    | some i =>
        obtain ⟨hi, hp⟩ := findIndex_some_spec _ _ _ hfi
        have huid : (a.comments.get ⟨i, hi⟩).userId = c.userId := by
          simp only [sameUserAndText, Bool.and_eq_true, beq_iff_eq] at hp
          exact hp.1
        have hup : upsertComment a.comments c = a.comments.set i c := by
          simp [upsertComment, hfi]
        refine ⟨h.1, ?_⟩
        show (List.map Comment.userId (upsertComment a.comments c)).Nodup
        rw [hup, List.map_set, ← huid]
        have hget : (a.comments.get ⟨i, hi⟩).userId =
            (a.comments.map Comment.userId).get ⟨i, by simpa using hi⟩ := by
          simp
        rw [hget, set_get_self]
        exact h.2
  · exact ⟨h.1, h.2⟩
  · exact ⟨h.1, h.2⟩
  · have hmap : List.map Comment.userId
        (a.comments.map fun d => if d.id = c.id then c else d) =
        List.map Comment.userId a.comments := by
      rw [List.map_map]
      apply List.map_congr_left
      intro d hd
      by_cases hid : d.id = c.id
      · simp [Function.comp, hid, (hc d hd hid).symm]
      · simp [Function.comp, hid]
    refine ⟨h.1, ?_⟩
    show (List.map Comment.userId
      (a.comments.map fun d => if d.id = c.id then c else d)).Nodup
    rw [hmap]
    exact h.2

/-- Concrete instance for C4 (amended): the invariant survives a
`rating_added` payload and a genuine `comment_voted` server echo. -/
theorem invariant_preserved_witness :
    PerUserUniqueOpt (applyRatingAdded
      (some (WeAllExplainActivity.mk "act1" "t" "u" "mq" "cq" ⟨"x", 0, 10⟩
        ⟨"y", 0, 10⟩ .active [] [] [⟨"c1", "a", "ua", "hi", 5, 0⟩]))
      ⟨"u1", ⟨1, 1⟩, 0⟩) ∧
    PerUserUniqueOpt (applyCommentVoted
      (some (WeAllExplainActivity.mk "act1" "t" "u" "mq" "cq" ⟨"x", 0, 10⟩
        ⟨"y", 0, 10⟩ .active [] [] [⟨"c1", "a", "ua", "hi", 5, 0⟩]))
      ⟨"c1", "a", "ua", "hi", 7, 0⟩) :=
  ⟨(invariant_preserved (WeAllExplainActivity.mk "act1" "t" "u" "mq" "cq"
      ⟨"x", 0, 10⟩ ⟨"y", 0, 10⟩ .active [] []
      [⟨"c1", "a", "ua", "hi", 5, 0⟩]) (by decide)).1 ⟨"u1", ⟨1, 1⟩, 0⟩,
   (invariant_preserved (WeAllExplainActivity.mk "act1" "t" "u" "mq" "cq"
      ⟨"x", 0, 10⟩ ⟨"y", 0, 10⟩ .active [] []
      [⟨"c1", "a", "ua", "hi", 5, 0⟩]) (by decide)).2.2.2.2
      ⟨"c1", "a", "ua", "hi", 7, 0⟩ (by decide)⟩

/-- The claim of C5 as stated is false: `comment_voted` installs the
server-delivered comment verbatim, so a payload carrying a lower vote count
decreases the stored count. With a stored comment `"c1"` at voteCount 5, a
`comment_voted` payload for `"c1"` with voteCount 3 leaves the count at 3. -/
theorem vote_monotonic_counterexample :
    voteCountOf (WeAllExplainActivity.mk "act1" "t" "u" "mq" "cq" ⟨"x", 0, 10⟩
      ⟨"y", 0, 10⟩ .active [] [] [⟨"c1", "a", "ua", "hi", 5, 0⟩]) "c1" =
      some 5 ∧
    (applyCommentVoted
      (some (WeAllExplainActivity.mk "act1" "t" "u" "mq" "cq" ⟨"x", 0, 10⟩
        ⟨"y", 0, 10⟩ .active [] [] [⟨"c1", "a", "ua", "hi", 5, 0⟩]))
      ⟨"c1", "a", "ua", "hi", 3, 0⟩).bind (fun a2 => voteCountOf a2 "c1") =
      some 3 ∧
    ¬ (5 ≤ 3) := by
  decide

/-- C5 (amended): no apply-operation computes a vote count locally — every
comment in the post-state of `comment_voted` or `comment_added` is either an
unchanged pre-state comment or the server-delivered payload verbatim, and
after `comment_voted` every comment carrying the payload's id is the payload
itself; consequently the stored count for that id does not decrease across a
step whenever the delivered count is at least every stored count for that id.
A delivered lower count is installed as-is, so unconditional monotonicity
does not hold. -/
theorem comment_ops_server_authoritative (a : WeAllExplainActivity)
    (c : Comment) :
    (∀ a2, applyCommentVoted (some a) c = some a2 →
      (∀ d ∈ a2.comments, d ∈ a.comments ∨ d = c) ∧
      (∀ d ∈ a2.comments, d.id = c.id → d = c) ∧
      ((∀ d ∈ a.comments, d.id = c.id → d.voteCount ≤ c.voteCount) →
        ∀ d2 ∈ a2.comments, d2.id = c.id →
          ∀ d ∈ a.comments, d.id = c.id → d.voteCount ≤ d2.voteCount)) ∧
    (∀ a2, applyCommentAdded (some a) c = some a2 →
      ∀ d ∈ a2.comments, d ∈ a.comments ∨ d = c) := by
  constructor
  · intro a2 h
    simp only [applyCommentVoted, Option.some.injEq] at h
    subst h
    have hid2 : ∀ d ∈ (a.comments.map fun e => if e.id = c.id then c else e),
        d.id = c.id → d = c := by
      intro d hd hdid
      obtain ⟨e, he, hde⟩ := List.mem_map.1 hd
      by_cases hid : e.id = c.id
      · rw [← hde]
        simp [hid]
      · rw [← hde] at hdid
        simp [hid] at hdid
    refine ⟨?_, hid2, ?_⟩
    · intro d hd
      obtain ⟨e, he, hde⟩ := List.mem_map.1 hd
      by_cases hid : e.id = c.id
      · right
        rw [← hde]
        simp [hid]
      · left
        rw [← hde]
        simpa [hid] using he
    · intro hmono d2 hd2 hd2id d hd hdid
      rw [hid2 d2 hd2 hd2id]
      exact hmono d hd hdid
  · intro a2 h
    simp only [applyCommentAdded, Option.some.injEq] at h
    subst h
    intro d hd
    cases hfi : findIndex (sameUserAndText c) a.comments with
    | some i =>
        simp only [upsertComment, hfi] at hd
        exact List.mem_or_eq_of_mem_set hd
    | none =>
        simp only [upsertComment, hfi, List.mem_append, List.mem_filter,
          List.mem_singleton] at hd
        rcases hd with ⟨hmem, -⟩ | hc
        · exact Or.inl hmem
        · exact Or.inr hc

/-- Concrete instance for C5 (amended): when the delivered count (7) is at
least the stored count (5) for the comment id, the stored count does not
decrease across the `comment_voted` step. -/
theorem comment_ops_server_authoritative_witness :
    (Comment.mk "c1" "a" "ua" "hi" 5 0).voteCount ≤
      (Comment.mk "c1" "a" "ua" "hi" 7 0).voteCount :=
  ((comment_ops_server_authoritative
      (WeAllExplainActivity.mk "act1" "t" "u" "mq" "cq" ⟨"x", 0, 10⟩
        ⟨"y", 0, 10⟩ .active [] [] [⟨"c1", "a", "ua", "hi", 5, 0⟩])
      ⟨"c1", "a", "ua", "hi", 7, 0⟩).1 _ rfl).2.2 (by decide)
    ⟨"c1", "a", "ua", "hi", 7, 0⟩ (by decide) rfl
    ⟨"c1", "a", "ua", "hi", 5, 0⟩ (by decide) rfl

theorem findCommentCost_replicate (n : Nat) (c : Comment) (uid : String)
    (h : c.userId ≠ uid) :
    findCommentCost (List.replicate n c) uid = n := by
  induction n with
  | zero => rfl
  | succ k ih => simp [List.replicate_succ, findCommentCost, h, ih, Nat.add_comm]

/-- The claim of C9 as stated is false: the userId resolution of
`handleMapDotClick` is `activity.comments.find`, a linear scan, so no constant
bounds the number of comments inspected over all activities with at least
10,000 entries — a list of `10000 + C` comments none of which carries the
clicked userId forces `10000 + C` inspections. -/
theorem constant_time_lookup_counterexample :
    ¬ ∃ C : Nat, ∀ (comments : List Comment) (userId : String),
      10000 ≤ comments.length → findCommentCost comments userId ≤ C := by
  rintro ⟨C, h⟩
  have hlen : 10000 ≤
      (List.replicate (10000 + C) (Comment.mk "c1" "a" "ua" "hi" 0 0)).length := by
    simp
  have hc := h _ "b" hlen
  rw [findCommentCost_replicate _ _ _ (by decide)] at hc
  omega

/-- C9 (amended): `handleMapDotClick` resolves a userId by a linear scan of
the comments list — the scan stops at the first comment with that userId,
inspecting up to the whole list (all of it when the userId is absent), not a
constant-time userId-keyed index lookup. -/
theorem findComment_linear_scan (l : List Comment) (uid : String) :
    findCommentCost l uid ≤ l.length ∧
    (findCommentByUser l uid = none → findCommentCost l uid = l.length) ∧
    (∀ c, findCommentByUser l uid = some c → c ∈ l ∧ c.userId = uid) := by
  induction l with
  | nil =>
      refine ⟨Nat.le_refl 0, fun _ => rfl, fun c hc => ?_⟩
      simp [findCommentByUser] at hc
  | cons d t ih =>
      obtain ⟨ih1, ih2, ih3⟩ := ih
      by_cases hd : d.userId = uid
      · refine ⟨?_, ?_, ?_⟩
        · simp [findCommentCost, hd]
        · intro h
          simp [findCommentByUser, hd] at h
        · intro c hc
          simp [findCommentByUser, hd] at hc
          subst hc
          exact ⟨List.mem_cons_self d t, hd⟩
      · refine ⟨?_, ?_, ?_⟩
        · simp only [findCommentCost, hd, if_false, List.length_cons]
          omega
        · intro h
          have ht : findCommentByUser t uid = none := by
            simpa [findCommentByUser, hd] using h
          simp only [findCommentCost, hd, if_false, List.length_cons, ih2 ht]
          omega
        · intro c hc
          have ht : findCommentByUser t uid = some c := by
            simpa [findCommentByUser, hd] using hc
          obtain ⟨hm, hu⟩ := ih3 c ht
          exact ⟨List.mem_cons_of_mem d hm, hu⟩

/-- Concrete instance for C9 (amended): on a singleton comment list with no
matching userId, the scan inspects the whole list. -/
theorem findComment_linear_scan_witness :
    findCommentCost [Comment.mk "c1" "a" "ua" "hi" 0 0] "b" =
      ([Comment.mk "c1" "a" "ua" "hi" 0 0] : List Comment).length :=
  (findComment_linear_scan [Comment.mk "c1" "a" "ua" "hi" 0 0] "b").2.1
    (by decide)

/-- C10: a request whose path starts with `/admin`, whose host's first
dot-separated label differs from the configured admin subdomain, which is not
`admin.localhost`, and whose hostname does not contain `localhost`, is
answered with HTTP 404 by the middleware instead of continuing. -/
theorem middleware_admin_404 (env : Option String) (host pathname : String)
    (hpath : strStartsWith pathname "/admin" = true)
    (hsub : (jsSplitDot host).headD "" ≠ adminSubdomainOf env)
    (hloc : host ≠ "admin.localhost")
    (hnl : strContains host "localhost" = false) :
    middleware env (some host) pathname = .notFound := by
  have h2 : (host == "admin.localhost:3000") = false := by
    rw [beq_eq_false_iff_ne]
    intro he
    rw [he] at hnl
    exact absurd hnl (by decide)
  have h3 : (host == "admin.localhost") = false := beq_eq_false_iff_ne.mpr hloc
  have h1 : ((jsSplitDot host).headD "" == adminSubdomainOf env) = false :=
    beq_eq_false_iff_ne.mpr hsub
  simp [middleware, h1, h2, h3, hpath, hnl]
  simpa using hsub

/-- Concrete instance for C10: `/admin/dash` requested from
`evil.example.com` with no admin-subdomain configuration answers 404. -/
theorem middleware_admin_404_witness :
    middleware none (some "evil.example.com") "/admin/dash" = .notFound :=
  middleware_admin_404 none "evil.example.com" "/admin/dash" (by decide)
    (by decide) (by decide) (by decide)
